import Mathlib

/-!
Verification development for the cam-tool repository (src/main.rs,
subcommand violent-cleanup).

The program is shallowly embedded as follows.

* Directory entries produced by the walkdir iterator are values of
  WalkEntry: a successful entry carries its path (as a list of
  components), its file type as reported without following symlinks,
  and the outcome of reading its modified time (an error, or seconds
  relative to the Unix epoch as an Int, negative meaning before the
  epoch); a failed entry is WalkEntry.err.
* The filesystem tree seen by the walk is FsTree; walk/walkList embed
  walkdir's depth-first traversal with its default of not following
  symbolic links (a symlink entry is emitted but its target is never
  entered).
* find_matching_files is split into collect_matches (the entry loop,
  in iteration order) followed by the sort.  The source sorts with
  sort_unstable_by_key, whose contract guarantees a permutation that
  is non-decreasing on the key but fixes no order on equal keys, so
  the sort is embedded as the relation sort_unstable_by_key_spec and
  the whole scanner as the relation find_matching_files_rel.
* read_use_percentage embeds the u64 arithmetic of the source with
  release-profile semantics: multiplication and subtraction wrap
  modulo 2^64, division by zero panics, and u8::try_from fails on
  values above 255.  RustOutcome distinguishes a returned value, a
  returned error, and a panic.
* The main cleanup loop is cleanup_loop, driven by an environment Env
  supplying the result of directory canonicalization, the result of
  the n-th usage query, and whether fs::remove_file succeeds on a
  given path.  RunResult records the candidates reported (the
  "should remove" lines), the candidates actually deleted, and
  whether main returned Ok.
-/

/-- File type of a directory entry as reported by the walk (which does
not follow symbolic links, so a symlink reports as symlink, not as its
target). -/
inductive FileType where
  | file
  | dir
  | symlink
  | other
deriving DecidableEq, Repr

instance : DecidableEq (Except Unit Int) :=
  fun a b =>
    match a, b with
    | Except.error _, Except.error _ => isTrue rfl
    | Except.ok x, Except.ok y =>
        if h : x = y then isTrue (h ▸ rfl) else isFalse (fun hxy => h (by cases hxy; rfl))
    | Except.error _, Except.ok _ => isFalse (fun hxy => by cases hxy)
    | Except.ok _, Except.error _ => isFalse (fun hxy => by cases hxy)

/-- One item yielded by the walkdir iterator: either a directory entry
with its path, file type and modified-time reading, or a traversal
error. -/
inductive WalkEntry where
  | ok (path : List String) (ftype : FileType) (meta : Except Unit Int)
  | err
deriving DecidableEq, Repr

/-- A filesystem tree as seen by the recursive walk.  A symlink node
carries the subtree it points at, which a non-following walk must
ignore; errEntry stands for an entry the walk fails to read. -/
inductive FsTree where
  | file (name : String) (meta : Except Unit Int)
  | dir (name : String) (children : List FsTree)
  | symlink (name : String) (target : FsTree)
  | other (name : String)
  | errEntry (name : String)

mutual

/-- Depth-first traversal of one tree node, embedding
walkdir::WalkDir::new with its defaults: the entry itself is yielded
first, a directory's children follow, and a symlink's target is never
entered. -/
def walk (pre : List String) : FsTree → List WalkEntry
  | FsTree.file n meta => [WalkEntry.ok (pre ++ [n]) FileType.file meta]
  | FsTree.dir n cs =>
      WalkEntry.ok (pre ++ [n]) FileType.dir (Except.error ()) :: walkList (pre ++ [n]) cs
  | FsTree.symlink n _t => [WalkEntry.ok (pre ++ [n]) FileType.symlink (Except.error ())]
  | FsTree.other n => [WalkEntry.ok (pre ++ [n]) FileType.other (Except.error ())]
  | FsTree.errEntry _ => [WalkEntry.err]

/-- Traversal of a list of sibling trees, in order. -/
def walkList (pre : List String) : List FsTree → List WalkEntry
  | [] => []
  | t :: ts => walk pre t ++ walkList pre ts

end

/-- The walkdir iteration over a root directory tree. -/
def walkEntries (root : FsTree) : List WalkEntry :=
  walk [] root

/-- get_file_modified: entry.metadata()?.modified()?
.duration_since(UNIX_EPOCH)?.as_secs().  A metadata/modified failure is
the Except.error case of the reading; duration_since fails exactly when
the modified time lies before the Unix epoch (negative seconds). -/
def get_file_modified (meta : Except Unit Int) : Except Unit Nat :=
  match meta with
  | Except.error e => Except.error e
  | Except.ok t => if t < 0 then Except.error () else Except.ok t.toNat

/-- dir_entry_to_modified: a traversal error propagates; a non-regular
file yields Ok(None); a regular file yields its path and modified time,
or propagates the modified-time failure. -/
def dir_entry_to_modified (entry : WalkEntry) : Except Unit (Option (List String × Nat)) :=
  match entry with
  | WalkEntry.err => Except.error ()
  | WalkEntry.ok p ft meta =>
      if ft = FileType.file then
        match get_file_modified meta with
        | Except.error e => Except.error e
        | Except.ok m => Except.ok (some (p, m))
      else Except.ok none

/-- Split a file name (as characters) at its last dot: stem and
extension, or none when the name has no dot. -/
def lastDotSplit : List Char → Option (List Char × List Char)
  | [] => none
  | c :: rest =>
      match lastDotSplit rest with
      | some (s, e) => some (c :: s, e)
      | none => if c = '.' then some ([], rest) else none

/-- Path::extension on a file name: the part after the last dot, none
when there is no dot or the only dot is the leading one (hidden files
such as ".gitignore" have no extension). -/
def extOf (name : String) : Option String :=
  match lastDotSplit name.data with
  | none => none
  | some ([], _) => none
  | some (_, e) => some (String.mk e)

/-- Path::extension of a walked path: the extension of its final
component. -/
def pathExt (p : List String) : Option String :=
  match p.getLast? with
  | none => none
  | some n => extOf n

/-- The entry loop of find_matching_files, in iteration order: per
entry, a traversal or metadata error is logged and skipped, a non-file
is skipped, a file without extension is skipped, and a file whose
extension occurs in filter_extensions is pushed with its modified
time. -/
def collect_matches : List WalkEntry → List String → List (List String × Nat)
  | [], _ => []
  | e :: es, fexts =>
      match dir_entry_to_modified e with
      | Except.ok (some (path, m)) =>
          match pathExt path with
          | none => collect_matches es fexts
          | some ext =>
              if fexts.any (fun f => f == ext) then
                (path, m) :: collect_matches es fexts
              else
                collect_matches es fexts
      | Except.ok none => collect_matches es fexts
      | Except.error _ => collect_matches es fexts

/-- Key order for the sort: compare candidates by modified time. -/
def keyLe (a b : List String × Nat) : Prop :=
  a.2 ≤ b.2

instance : DecidableRel keyLe :=
  fun a b => Nat.decLe a.2 b.2

instance : IsTotal (List String × Nat) keyLe :=
  ⟨fun a b => Nat.le_total a.2 b.2⟩

instance : IsTrans (List String × Nat) keyLe :=
  ⟨fun _ _ _ => Nat.le_trans⟩

/-- Non-decreasing on the modified-time key. -/
def sortedByKey (l : List (List String × Nat)) : Prop :=
  List.Chain' keyLe l

/-- Contract of slice::sort_unstable_by_key on the modified time: the
output is a permutation of the input that is non-decreasing on the key;
no order among equal keys is promised. -/
def sort_unstable_by_key_spec (inp out : List (List String × Nat)) : Prop :=
  out.Perm inp ∧ sortedByKey out

/-- find_matching_files over a given entry iteration: collect the
matches in iteration order, sort them by modified time with the
unstable sort, and keep the paths. -/
def find_matching_files_rel (entries : List WalkEntry) (fexts : List String)
    (out : List (List String)) : Prop :=
  ∃ sorted, sort_unstable_by_key_spec (collect_matches entries fexts) sorted ∧
    out = sorted.map Prod.fst

/-- Outcome of a Rust computation as observed by the caller: a value, a
returned error, or a panic. -/
inductive RustOutcome where
  | ok (v : Nat)
  | err
  | panicked
deriving DecidableEq, Repr

/-- 2^64, the modulus of u64 arithmetic. -/
def u64size : Nat := 2 ^ 64

/-- read_use_percentage given the statvfs block counts:
u8::try_from(100u64 - blocks_free * 100 / blocks).  Embedded with
release-profile u64 semantics: the multiplication and the subtraction
wrap modulo 2^64, the division panics when blocks is zero, and
u8::try_from errs for values above 255. -/
def read_use_percentage (blocks bfree : Nat) : RustOutcome :=
  let b := blocks % u64size
  let f := bfree % u64size
  if b = 0 then RustOutcome.panicked
  else
    let q := f * 100 % u64size / b
    let r := (100 + u64size - q) % u64size
    if r ≤ 255 then RustOutcome.ok r else RustOutcome.err

/-- Environment of one run: whether directory.canonicalize() succeeds,
the result of the n-th read_use_percentage call (index 0 is the initial
check, the loop checks follow), and whether fs::remove_file succeeds on
a given path.  Usage results and deletions are external effects, so
they are oracle inputs: the filesystem may change under the program. -/
structure Env where
  canonOk : Bool
  usageAt : Nat → Except Unit Nat
  removeOk : List String → Bool

/-- Observable outcome of a run: the candidates reported ("should
remove" lines) in order, the candidates whose deletion was performed,
and whether main returned Ok. -/
structure RunResult where
  reported : List (List String)
  removed : List (List String)
  ok : Bool
deriving DecidableEq, Repr

/-- The while-let loop of main: pop the front candidate, re-query usage
(propagating a query error), break when strictly below target,
otherwise report the candidate and, when actually_rm is set, delete it
(propagating a deletion error). -/
def cleanup_loop (env : Env) (target : Nat) (actually_rm : Bool) :
    List (List String) → Nat → RunResult
  | [], _ => ⟨[], [], true⟩
  | c :: rest, qi =>
      match env.usageAt qi with
      | Except.error _ => ⟨[], [], false⟩
      | Except.ok u =>
          if u < target then ⟨[], [], true⟩
          else if actually_rm then
            if env.removeOk c then
              let r := cleanup_loop env target actually_rm rest (qi + 1)
              ⟨c :: r.reported, c :: r.removed, r.ok⟩
            else ⟨[c], [], false⟩
          else
            let r := cleanup_loop env target actually_rm rest (qi + 1)
            ⟨c :: r.reported, r.removed, r.ok⟩

/-- The violent-cleanup arm of main, given the sorted candidate queue:
canonicalize the directory, make the initial usage check, return Ok at
once when strictly below target, otherwise run the loop (whose usage
queries start at index 1). -/
def violent_cleanup (env : Env) (target : Nat) (actually_rm : Bool)
    (queue : List (List String)) : RunResult :=
  if env.canonOk = false then ⟨[], [], false⟩
  else
    match env.usageAt 0 with
    | Except.error _ => ⟨[], [], false⟩
    | Except.ok u =>
        if u < target then ⟨[], [], true⟩
        else cleanup_loop env target actually_rm queue 1

/-- The files still on disk after a run: the run's only mutations are
the performed deletions. -/
def apply_removals (disk : List (List String)) (res : RunResult) : List (List String) :=
  disk.filter (fun p => !(res.removed.contains p))

mutual

/-- Replace every symlink target in a tree by an inert node, leaving
everything else unchanged.  A walk that does not follow symlinks cannot
tell a tree from its pruned form. -/
def pruneLinks : FsTree → FsTree
  | FsTree.file n meta => FsTree.file n meta
  | FsTree.dir n cs => FsTree.dir n (pruneLinksList cs)
  | FsTree.symlink n _t => FsTree.symlink n (FsTree.other n)
  | FsTree.other n => FsTree.other n
  | FsTree.errEntry n => FsTree.errEntry n

/-- pruneLinks on a list of sibling trees. -/
def pruneLinksList : List FsTree → List FsTree
  | [] => []
  | t :: ts => pruneLinks t :: pruneLinksList ts

end

mutual

/-- The walk of a pruned tree equals the walk of the tree: the
traversal never looks inside a symlink target. -/
theorem walk_pruneLinks (t : FsTree) (pre : List String) :
    walk pre (pruneLinks t) = walk pre t := by
  cases t with
  | file n meta => rfl
  | dir n cs =>
      simp only [pruneLinks, walk]
      rw [walkList_pruneLinksList cs (pre ++ [n])]
  | symlink n t => rfl
  | other n => rfl
  | errEntry n => rfl

/-- walk_pruneLinks for sibling lists. -/
theorem walkList_pruneLinksList (ts : List FsTree) (pre : List String) :
    walkList pre (pruneLinksList ts) = walkList pre ts := by
  cases ts with
  | nil => rfl
  | cons t ts =>
      simp only [pruneLinksList, walkList]
      rw [walk_pruneLinks t pre, walkList_pruneLinksList ts pre]

end

/-- The dry-run loop deletes nothing. -/
theorem cleanup_loop_removed_dry (env : Env) (target : Nat) :
    ∀ (q : List (List String)) (qi : Nat),
      (cleanup_loop env target false q qi).removed = [] := by
  intro q
  induction q with
  | nil => intro qi; rfl
  | cons c rest ih =>
      intro qi
      simp only [cleanup_loop]
      cases h : env.usageAt qi with
      | error e => rfl
      | ok u =>
          by_cases hu : u < target
          · simp [hu]
          · simp [hu, ih]

/-- Indexing helper: dropping j elements of a list with j in range
exposes the j-th element at the front. -/
theorem drop_eq_getD_cons :
    ∀ (q : List (List String)) (j : Nat), j < q.length →
      q.drop j = q.getD j [] :: q.drop (j + 1) := by
  intro q
  induction q with
  | nil => intro j h; simp at h
  | cons c rest ih =>
      intro j h
      cases j with
      | zero => rfl
      | succ j =>
          simp only [List.drop_succ_cons, List.getD_cons_succ]
          exact ih j (by simpa using h)

/-- Indexing helper: taking j+1 elements appends the j-th element to
the first j. -/
theorem take_succ_getD :
    ∀ (q : List (List String)) (j : Nat), j < q.length →
      q.take (j + 1) = q.take j ++ [q.getD j []] := by
  intro q
  induction q with
  | nil => intro j h; simp at h
  | cons c rest ih =>
      intro j h
      cases j with
      | zero => rfl
      | succ j =>
          simp only [List.take_succ_cons, List.getD_cons_succ, List.cons_append]
          rw [ih j (by simpa using h)]

/-- Unrolling of the cleanup loop: as long as every usage re-check
comes back at or above target and every attempted deletion succeeds,
the loop consumes the queue front to back; after j such iterations the
first j candidates have been reported (and deleted in commit mode) and
the loop continues on the rest with the query index advanced by j. -/
theorem cleanup_loop_take (env : Env) (target : Nat) (rm : Bool) :
    ∀ (j : Nat) (q : List (List String)) (qi : Nat),
      j ≤ q.length →
      (∀ i, i < j → ∃ v, env.usageAt (qi + i) = Except.ok v ∧ target ≤ v) →
      (∀ i, i < j → env.removeOk (q.getD i []) = true) →
      cleanup_loop env target rm q qi =
        ⟨q.take j ++ (cleanup_loop env target rm (q.drop j) (qi + j)).reported,
         (if rm then q.take j else []) ++ (cleanup_loop env target rm (q.drop j) (qi + j)).removed,
         (cleanup_loop env target rm (q.drop j) (qi + j)).ok⟩ := by
  intro j
  induction j with
  | zero =>
      intro q qi _ _ _
      simp
  | succ j ih =>
      intro q qi hlen hu hr
      match q with
      | [] => simp at hlen
      | c :: rest =>
          obtain ⟨v, hv, htv⟩ := hu 0 (Nat.succ_pos j)
          have hvz : env.usageAt qi = Except.ok v := by simpa using hv
          have hrc : env.removeOk c = true := by simpa using hr 0 (Nat.succ_pos j)
          have hnl : ¬ v < target := Nat.not_lt.mpr htv
          have hrec := ih rest (qi + 1) (by simpa using Nat.succ_le_succ_iff.mp hlen)
            (fun i hi => by
              have h1 := hu (i + 1) (Nat.succ_lt_succ hi)
              have e : qi + (i + 1) = qi + 1 + i := by omega
              rw [e] at h1
              exact h1)
            (fun i hi => by
              have h1 := hr (i + 1) (Nat.succ_lt_succ hi)
              simpa using h1)
          have eidx : qi + 1 + j = qi + (j + 1) := by omega
          rw [eidx] at hrec
          simp only [cleanup_loop, hvz, hnl, if_false]
          cases rm with
          | true =>
              simp only [if_true, hrc, hrec]
              simp [List.take_succ_cons, List.drop_succ_cons]
          | false =>
              simp only [Bool.false_eq_true, if_false, hrec]
              simp [List.take_succ_cons, List.drop_succ_cons]

/-- Inversion: an entry that dir_entry_to_modified maps to a matched
pair is a regular-file entry with a successfully read modified time. -/
theorem dir_entry_to_modified_ok_some {e : WalkEntry} {p : List String} {m : Nat}
    (h : dir_entry_to_modified e = Except.ok (some (p, m))) :
    ∃ meta, e = WalkEntry.ok p FileType.file meta ∧ get_file_modified meta = Except.ok m := by
  cases e with
  | err => simp [dir_entry_to_modified] at h
  | ok p2 ft meta =>
      by_cases hft : ft = FileType.file
      · subst hft
        simp only [dir_entry_to_modified, if_true] at h
        cases hm : get_file_modified meta with
        | error e2 => rw [hm] at h; simp at h
        | ok m2 =>
            rw [hm] at h
            simp only [Except.ok.injEq, Option.some.injEq, Prod.mk.injEq] at h
            obtain ⟨hp, hm2⟩ := h
            exact ⟨meta, by rw [hp], by rw [hm, hm2]⟩
      · simp [dir_entry_to_modified, hft] at h

/-- Every pair collected by the scanner loop comes from a regular-file
entry of the iteration whose modified time was read successfully and
whose extension is present in the filter set. -/
theorem mem_collect_matches :
    ∀ (es : List WalkEntry) (fexts : List String) (p : List String) (m : Nat),
      (p, m) ∈ collect_matches es fexts →
      ∃ meta, WalkEntry.ok p FileType.file meta ∈ es ∧
        get_file_modified meta = Except.ok m ∧
        ∃ ext, pathExt p = some ext ∧ ext ∈ fexts := by
  intro es
  induction es with
  | nil => intro fexts p m h; simp [collect_matches] at h
  | cons e es ih =>
      intro fexts p m h
      simp only [collect_matches] at h
      cases hd : dir_entry_to_modified e with
      | error e2 =>
          rw [hd] at h
          obtain ⟨meta, h1, h2, h3⟩ := ih fexts p m h
          exact ⟨meta, List.mem_cons_of_mem _ h1, h2, h3⟩
      | ok o =>
          rw [hd] at h
          cases o with
          | none =>
              obtain ⟨meta, h1, h2, h3⟩ := ih fexts p m h
              exact ⟨meta, List.mem_cons_of_mem _ h1, h2, h3⟩
          | some pm =>
              obtain ⟨path, m2⟩ := pm
              dsimp only at h
              cases hx : pathExt path with
              | none =>
                  rw [hx] at h
                  obtain ⟨meta, h1, h2, h3⟩ := ih fexts p m h
                  exact ⟨meta, List.mem_cons_of_mem _ h1, h2, h3⟩
              | some ext =>
                  rw [hx] at h
                  dsimp only at h
                  by_cases hin : fexts.any (fun f => f == ext) = true
                  · rw [if_pos hin] at h
                    cases h with
                    | head =>
                        obtain ⟨meta, he, hm⟩ := dir_entry_to_modified_ok_some hd
                        refine ⟨meta, by rw [he]; exact List.mem_cons_self _ _, hm, ext, hx, ?_⟩
                        obtain ⟨f, hf, hfe⟩ := List.any_eq_true.mp hin
                        have hfeq : f = ext := beq_iff_eq.mp hfe
                        rwa [hfeq] at hf
                    | tail _ h2 =>
                        obtain ⟨meta, h1, h2, h3⟩ := ih fexts p m h2
                        exact ⟨meta, List.mem_cons_of_mem _ h1, h2, h3⟩
                  · rw [if_neg hin] at h
                    obtain ⟨meta, h1, h2, h3⟩ := ih fexts p m h
                    exact ⟨meta, List.mem_cons_of_mem _ h1, h2, h3⟩

/-- With an empty filter set no entry matches. -/
theorem collect_matches_nil_filter :
    ∀ (es : List WalkEntry), collect_matches es [] = [] := by
  intro es
  induction es with
  | nil => rfl
  | cons e es ih =>
      simp only [collect_matches]
      cases hd : dir_entry_to_modified e with
      | error e2 => exact ih
      | ok o =>
          cases o with
          | none => exact ih
          | some pm =>
              obtain ⟨path, m⟩ := pm
              dsimp only
              cases hx : pathExt path with
              | none => exact ih
              | some ext => simpa using ih

/-- C1: Once a usage re-check inside the cleanup loop reports current
usage strictly below the target percentage, no further candidate is
reported or deleted in that run even though candidates remain in the
queue: the run reports exactly the candidates consumed before that
check, removes no candidate from that point on, and ends successfully,
leaving the remaining candidates' files untouched. -/
theorem cleanup_stops_after_below_target (env : Env) (target : Nat) (rm : Bool)
    (q : List (List String)) (qi j u : Nat)
    (hrem : j < q.length)
    (hu : ∀ i, i < j → ∃ v, env.usageAt (qi + i) = Except.ok v ∧ target ≤ v)
    (hr : ∀ i, i < j → env.removeOk (q.getD i []) = true)
    (hbelow : env.usageAt (qi + j) = Except.ok u) (hlt : u < target) :
    cleanup_loop env target rm q qi =
      ⟨q.take j, if rm then q.take j else [], true⟩ := by
  rw [cleanup_loop_take env target rm j q qi (Nat.le_of_lt hrem) hu hr]
  rw [drop_eq_getD_cons q j hrem]
  simp only [cleanup_loop, hbelow, if_pos hlt]
  simp

/-- C1 witness: a concrete loop state whose first re-check is below
target stops at once with nothing reported or removed. -/
theorem cleanup_stops_after_below_target_witness :
    cleanup_loop ⟨true, fun _ => Except.ok 10, fun _ => true⟩ 80 true
      [["cam", "old.mp4"]] 1 = ⟨[], [], true⟩ := by
  have h := cleanup_stops_after_below_target ⟨true, fun _ => Except.ok 10, fun _ => true⟩
    80 true [["cam", "old.mp4"]] 1 0 10 (by decide)
    (fun i hi => absurd hi (Nat.not_lt_zero i))
    (fun i hi => absurd hi (Nat.not_lt_zero i))
    rfl (by decide)
  simpa using h

/-- C2: With commit mode off (flag --actually-rm absent) a run performs
no deletion whatever the environment, target and queue: the removed
set is empty, so the files present on disk after the run are exactly
those present before. -/
theorem dry_run_no_mutation (env : Env) (target : Nat)
    (queue : List (List String)) (disk : List (List String)) :
    (violent_cleanup env target false queue).removed = [] ∧
    apply_removals disk (violent_cleanup env target false queue) = disk := by
  have hrm : (violent_cleanup env target false queue).removed = [] := by
    unfold violent_cleanup
    by_cases hc : env.canonOk = false
    · simp [hc]
    · rw [if_neg hc]
      cases h0 : env.usageAt 0 with
      | error e => rfl
      | ok u =>
          by_cases hu : u < target
          · simp [hu]
          · simp [hu, cleanup_loop_removed_dry]
  refine ⟨hrm, ?_⟩
  simp [apply_removals, hrm]

/-- C3: When the initial usage query is strictly below the target the
run ends immediately and successfully, for every possible candidate
queue, deleting and reporting nothing: the scanner's output never
influences the result. -/
theorem below_target_short_circuit (env : Env) (target : Nat) (rm : Bool) (u : Nat)
    (hc : env.canonOk = true) (h0 : env.usageAt 0 = Except.ok u) (hu : u < target) :
    ∀ queue : List (List String),
      violent_cleanup env target rm queue = ⟨[], [], true⟩ := by
  intro queue
  simp [violent_cleanup, hc, h0, hu]

/-- C3 witness: a concrete run that starts below target ends at once. -/
theorem below_target_short_circuit_witness :
    violent_cleanup ⟨true, fun _ => Except.ok 10, fun _ => true⟩ 50 true
      [["cam", "a.mp4"]] = ⟨[], [], true⟩ :=
  below_target_short_circuit ⟨true, fun _ => Except.ok 10, fun _ => true⟩ 50 true 10
    rfl rfl (by decide) [["cam", "a.mp4"]]

/-- C6: In commit mode, when the deletion of the candidate at 0-based
position j of the queue fails while every earlier check stayed at or
above target and every earlier deletion succeeded, the run aborts with
an error having reported exactly the first j+1 candidates and deleted
exactly the first j; no later candidate is reported or attempted and no
completed deletion is rolled back. -/
theorem deletion_failure_aborts (env : Env) (target : Nat) (q : List (List String))
    (j u0 : Nat)
    (hc : env.canonOk = true)
    (h0 : env.usageAt 0 = Except.ok u0) (h0t : target ≤ u0)
    (hrem : j < q.length)
    (hu : ∀ i, i ≤ j → ∃ v, env.usageAt (1 + i) = Except.ok v ∧ target ≤ v)
    (hr : ∀ i, i < j → env.removeOk (q.getD i []) = true)
    (hfail : env.removeOk (q.getD j []) = false) :
    violent_cleanup env target true q = ⟨q.take (j + 1), q.take j, false⟩ := by
  have hmain : violent_cleanup env target true q = cleanup_loop env target true q 1 := by
    simp [violent_cleanup, hc, h0, Nat.not_lt.mpr h0t]
  rw [hmain]
  rw [cleanup_loop_take env target true j q 1 (Nat.le_of_lt hrem)
    (fun i hi => hu i (Nat.le_of_lt hi)) hr]
  rw [drop_eq_getD_cons q j hrem]
  obtain ⟨v, hv, htv⟩ := hu j (Nat.le_refl j)
  have hnl : ¬ v < target := Nat.not_lt.mpr htv
  simp only [cleanup_loop, hv, hnl, if_false, if_true, hfail]
  rw [take_succ_getD q j hrem]
  simp

/-- C6 witness: usage stays at 90 over target 80, deleting the second
of three candidates fails; the run reports the first two, deletes only
the first, and returns an error. -/
theorem deletion_failure_aborts_witness :
    violent_cleanup ⟨true, fun _ => Except.ok 90, fun p => p == ["cam", "a.mp4"]⟩ 80 true
      [["cam", "a.mp4"], ["cam", "b.mp4"], ["cam", "c.mp4"]] =
      ⟨[["cam", "a.mp4"], ["cam", "b.mp4"]], [["cam", "a.mp4"]], false⟩ := by
  have h := deletion_failure_aborts
    ⟨true, fun _ => Except.ok 90, fun p => p == ["cam", "a.mp4"]⟩ 80
    [["cam", "a.mp4"], ["cam", "b.mp4"], ["cam", "c.mp4"]] 1 90
    rfl rfl (by decide) (by decide)
    (fun i _ => ⟨90, rfl, by decide⟩)
    (fun i hi => by
      have hz : i = 0 := by omega
      subst hz
      decide)
    (by decide)
  simpa using h

/-- C8 counterexample: a run whose every usage query returns exactly
the target percentage still deletes a candidate, so cleanup does not
stop at the target, refuting that no deletion happens when usage
equals the target. -/
theorem equal_usage_still_deletes :
    (violent_cleanup ⟨true, fun _ => Except.ok 80, fun _ => true⟩ 80 true
      [["cam", "a.mp4"]]).removed = [["cam", "a.mp4"]] := by
  decide

/-- C8 amended: the loop's stop condition is strict: a usage check
strictly below target stops the loop at once, while a check at or
above target (in particular exactly at target) lets the run proceed to
report (and in commit mode delete) the next candidate. -/
theorem loop_breaks_only_strictly_below (env : Env) (target : Nat) (rm : Bool)
    (qi : Nat) (c : List String) (rest : List (List String)) (u : Nat)
    (h : env.usageAt qi = Except.ok u) :
    (u < target → cleanup_loop env target rm (c :: rest) qi = ⟨[], [], true⟩) ∧
    (target ≤ u → (cleanup_loop env target rm (c :: rest) qi).reported.head? = some c) := by
  constructor
  · intro hlt
    simp [cleanup_loop, h, hlt]
  · intro hge
    have hnl : ¬ u < target := Nat.not_lt.mpr hge
    simp only [cleanup_loop, h, hnl, if_false]
    cases rm with
    | true =>
        cases hrc : env.removeOk c with
        | true => simp [hrc]
        | false => simp [hrc]
    | false => simp

/-- C8 amended witness: with usage pinned exactly at the target of 80
the candidate at the front of the queue is still reported. -/
theorem loop_breaks_only_strictly_below_witness :
    (cleanup_loop ⟨true, fun _ => Except.ok 80, fun _ => true⟩ 80 true
      (["cam", "a.mp4"] :: []) 1).reported.head? = some ["cam", "a.mp4"] :=
  (loop_breaks_only_strictly_below ⟨true, fun _ => Except.ok 80, fun _ => true⟩ 80 true 1
    ["cam", "a.mp4"] [] 80 rfl).2 (Nat.le_refl 80)

/-- C9: The walk never follows symbolic links.  Replacing every
symlink target in the tree by an inert node changes neither the walk
nor the collected candidates, so files reachable only through a
symlink never become candidates; and a symlink entry itself is
discarded by dir_entry_to_modified (its file type is not a regular
file), so it is never added to the queue. -/
theorem symlinks_not_followed :
    (∀ (pre : List String) (t : FsTree), walk pre (pruneLinks t) = walk pre t) ∧
    (∀ (p : List String) (meta : Except Unit Int),
      dir_entry_to_modified (WalkEntry.ok p FileType.symlink meta) = Except.ok none) ∧
    (∀ (root : FsTree) (fexts : List String),
      collect_matches (walkEntries (pruneLinks root)) fexts =
        collect_matches (walkEntries root) fexts) := by
  refine ⟨fun pre t => walk_pruneLinks t pre, fun p meta => rfl, fun root fexts => ?_⟩
  unfold walkEntries
  rw [walk_pruneLinks root []]

/-- C10: A regular file whose modified time lies before the Unix epoch
is skipped by the scanner loop: the loop's result with the entry
present equals its result without it, so the file never enters the
queue and never aborts the scan. -/
theorem pre_epoch_mtime_skipped (p : List String) (t : Int) (es : List WalkEntry)
    (fexts : List String) (h : t < 0) :
    collect_matches (WalkEntry.ok p FileType.file (Except.ok t) :: es) fexts =
      collect_matches es fexts := by
  have hg : get_file_modified (Except.ok t) = Except.error () := by
    simp [get_file_modified, h]
  have hd : dir_entry_to_modified (WalkEntry.ok p FileType.file (Except.ok t)) =
      Except.error () := by
    simp [dir_entry_to_modified, hg]
  simp [collect_matches, hd]

/-- C10 witness: a file dated one second before the epoch is skipped
and the scan of the remaining (empty) iteration proceeds. -/
theorem pre_epoch_mtime_skipped_witness :
    collect_matches [WalkEntry.ok ["cam", "pre.mp4"] FileType.file (Except.ok (-1))]
      ["mp4"] = collect_matches [] ["mp4"] :=
  pre_epoch_mtime_skipped ["cam", "pre.mp4"] (-1) [] ["mp4"] (by decide)

/-- C7 counterexample: with zero total blocks read_use_percentage
panics at the division instead of failing with a returned error,
refuting that a zero block count yields an error rather than a
crash. -/
theorem usage_zero_blocks_panics :
    read_use_percentage 0 0 = RustOutcome.panicked ∧
    RustOutcome.panicked ≠ RustOutcome.err := by
  decide

/-- C7 amended: for nonzero total blocks the computation never panics:
it returns Ok of the wrapped u64 value (100 +wrap 2^64 - free*100 mod
2^64 / total) mod 2^64 whenever that value fits u8::try_from's 0-255
range, and fails with the try_from range error otherwise; when
moreover free does not exceed total and free*100 fits in u64 it
returns exactly 100 - floor(free*100/total), an integer in [0,100].
Zero total blocks, by contrast, panics at the division (see the
counterexample). -/
theorem read_use_percentage_range (blocks bfree : Nat)
    (hb : blocks ≠ 0) (hb64 : blocks < u64size) (hf64 : bfree < u64size) :
    read_use_percentage blocks bfree ≠ RustOutcome.panicked ∧
    read_use_percentage blocks bfree =
      (if (100 + u64size - bfree * 100 % u64size / blocks) % u64size ≤ 255 then
        RustOutcome.ok ((100 + u64size - bfree * 100 % u64size / blocks) % u64size)
      else RustOutcome.err) ∧
    (bfree ≤ blocks → bfree * 100 < u64size →
      read_use_percentage blocks bfree =
        RustOutcome.ok (100 - bfree * 100 / blocks) ∧
      100 - bfree * 100 / blocks ≤ 100) := by
  have hbm : blocks % u64size = blocks := Nat.mod_eq_of_lt hb64
  have hfm : bfree % u64size = bfree := Nat.mod_eq_of_lt hf64
  have hbz : ¬ (blocks % u64size = 0) := by rw [hbm]; exact hb
  have hchar : read_use_percentage blocks bfree =
      (if (100 + u64size - bfree * 100 % u64size / blocks) % u64size ≤ 255 then
        RustOutcome.ok ((100 + u64size - bfree * 100 % u64size / blocks) % u64size)
      else RustOutcome.err) := by
    simp only [read_use_percentage]
    rw [if_neg hbz, hfm, hbm]
  refine ⟨?_, hchar, ?_⟩
  · rw [hchar]
    split <;> simp
  · intro hle hmul
    have hq : bfree % u64size * 100 % u64size = bfree * 100 := by
      rw [hfm]; exact Nat.mod_eq_of_lt hmul
    have hq100 : bfree * 100 / blocks ≤ 100 := by
      have h1 : bfree * 100 ≤ blocks * 100 := Nat.mul_le_mul_right 100 hle
      have h2 : bfree * 100 / blocks ≤ blocks * 100 / blocks := Nat.div_le_div_right h1
      have h3 : blocks * 100 / blocks = 100 := by
        rw [Nat.mul_comm]
        exact Nat.mul_div_cancel 100 (Nat.pos_of_ne_zero hb)
      omega
    have h64 : u64size = 18446744073709551616 := by norm_num [u64size]
    obtain ⟨d, hd⟩ : ∃ d, bfree * 100 / blocks = d := ⟨_, rfl⟩
    rw [hd] at hq100 ⊢
    have hr : (100 + u64size - d) % u64size = 100 - d := by
      rw [h64]
      omega
    refine ⟨?_, by omega⟩
    simp only [read_use_percentage]
    rw [if_neg hbz, hq, hbm, hd, hr]
    rw [if_pos (by omega : 100 - d ≤ 255)]

/-- C7 amended witness: 200 total blocks with 50 free yields exactly
75 percent use. -/
theorem read_use_percentage_range_witness :
    read_use_percentage 200 50 ≠ RustOutcome.panicked ∧
    read_use_percentage 200 50 =
      (if (100 + u64size - 50 * 100 % u64size / 200) % u64size ≤ 255 then
        RustOutcome.ok ((100 + u64size - 50 * 100 % u64size / 200) % u64size)
      else RustOutcome.err) ∧
    ((50 : Nat) ≤ 200 → 50 * 100 < u64size →
      read_use_percentage 200 50 = RustOutcome.ok (100 - 50 * 100 / 200) ∧
      100 - 50 * 100 / 200 ≤ 100) :=
  read_use_percentage_range 200 50 (by decide) (by decide) (by decide)

/-- Sanity for the wrapped cases of read_use_percentage: free blocks
slightly above total still give a wrapped value at most 100, returned
as Ok (1001 free of 1000 total is Ok 0), while a large excess wraps
far past 255 and hits the u8::try_from range error (2 free of 1
total). -/
theorem read_use_percentage_excess_examples :
    read_use_percentage 1000 1001 = RustOutcome.ok 0 ∧
    read_use_percentage 1 2 = RustOutcome.err := by
  decide

/-- C4 counterexample: on a scan yielding two candidates with equal
modified times, the contract of the unstable sort used by the code
admits the output that reverses the iteration order of the tied
candidates, refuting that the queue always keeps equal timestamps in
scan order (a stable sort would be forced to return the collected
order here). -/
theorem sort_stability_counterexample :
    sort_unstable_by_key_spec
      (collect_matches
        [WalkEntry.ok ["cam", "a.mp4"] FileType.file (Except.ok 5),
         WalkEntry.ok ["cam", "b.mp4"] FileType.file (Except.ok 5)] ["mp4"])
      [(["cam", "b.mp4"], 5), (["cam", "a.mp4"], 5)] ∧
    [(["cam", "b.mp4"], 5), (["cam", "a.mp4"], 5)] ≠
      collect_matches
        [WalkEntry.ok ["cam", "a.mp4"] FileType.file (Except.ok 5),
         WalkEntry.ok ["cam", "b.mp4"] FileType.file (Except.ok 5)] ["mp4"] := by
  constructor
  · constructor
    · exact List.Perm.swap (["cam", "a.mp4"], 5) (["cam", "b.mp4"], 5) []
    · exact List.chain'_cons.mpr ⟨Nat.le_refl 5, List.chain'_singleton _⟩
  · decide

/-- C4 amended: every queue the scanner can return is, at the level of
its candidate pairs, a permutation of the collected matches that is
non-decreasing on modified time (oldest first); such a queue always
exists.  The order among candidates with equal modified times is
unspecified because the code sorts with an unstable sort. -/
theorem queue_sorted_by_mtime (entries : List WalkEntry) (fexts : List String) :
    (∃ out, find_matching_files_rel entries fexts out) ∧
    (∀ out, find_matching_files_rel entries fexts out →
      ∃ pairs, pairs.Perm (collect_matches entries fexts) ∧ sortedByKey pairs ∧
        out = pairs.map Prod.fst) := by
  constructor
  · refine ⟨(List.insertionSort keyLe (collect_matches entries fexts)).map Prod.fst,
      List.insertionSort keyLe (collect_matches entries fexts), ⟨?_, ?_⟩, rfl⟩
    · exact List.perm_insertionSort keyLe _
    · exact List.chain'_iff_pairwise.mpr (List.sorted_insertionSort keyLe _)
  · intro out h
    obtain ⟨s, ⟨hp, hs⟩, ho⟩ := h
    exact ⟨s, hp, hs, ho⟩

/-- C4 amended witness: instantiation on a one-file scan. -/
theorem queue_sorted_by_mtime_witness :
    (∃ out, find_matching_files_rel
      [WalkEntry.ok ["cam", "a.mp4"] FileType.file (Except.ok 5)] ["mp4"] out) ∧
    (∀ out, find_matching_files_rel
      [WalkEntry.ok ["cam", "a.mp4"] FileType.file (Except.ok 5)] ["mp4"] out →
      ∃ pairs, pairs.Perm (collect_matches
          [WalkEntry.ok ["cam", "a.mp4"] FileType.file (Except.ok 5)] ["mp4"]) ∧
        sortedByKey pairs ∧ out = pairs.map Prod.fst) :=
  queue_sorted_by_mtime [WalkEntry.ok ["cam", "a.mp4"] FileType.file (Except.ok 5)] ["mp4"]

/-- C5: Every path in a queue the scanner can return originates in a
regular-file entry of the iteration whose modified time was read, has
an extension component, and that extension belongs to the filter set;
with the empty filter set the queue is empty. -/
theorem queue_membership_invariant (entries : List WalkEntry) (fexts : List String)
    (out : List (List String)) (h : find_matching_files_rel entries fexts out) :
    (∀ p, p ∈ out → ∃ meta,
      WalkEntry.ok p FileType.file meta ∈ entries ∧
      (∃ m, get_file_modified meta = Except.ok m) ∧
      ∃ ext, pathExt p = some ext ∧ ext ∈ fexts) ∧
    (fexts = [] → out = []) := by
  obtain ⟨s, ⟨hp, hs⟩, ho⟩ := h
  constructor
  · intro p hmem
    rw [ho] at hmem
    obtain ⟨⟨p2, m⟩, hpm, hfst⟩ := List.mem_map.mp hmem
    dsimp at hfst
    subst hfst
    have hc : (p2, m) ∈ collect_matches entries fexts := hp.mem_iff.mp hpm
    obtain ⟨meta, h1, h2, h3⟩ := mem_collect_matches entries fexts p2 m hc
    exact ⟨meta, h1, ⟨m, h2⟩, h3⟩
  · intro hnil
    subst hnil
    rw [collect_matches_nil_filter] at hp
    have hs0 : s = [] := List.perm_nil.mp hp
    rw [ho, hs0]
    rfl

/-- C5 witness: on a one-file scan with filter set containing mp4 the
claimed membership properties hold of the returned queue. -/
theorem queue_membership_invariant_witness :
    (∀ p, p ∈ [["cam", "a.mp4"]] → ∃ meta,
      WalkEntry.ok p FileType.file meta ∈
        [WalkEntry.ok ["cam", "a.mp4"] FileType.file (Except.ok 5)] ∧
      (∃ m, get_file_modified meta = Except.ok m) ∧
      ∃ ext, pathExt p = some ext ∧ ext ∈ ["mp4"]) ∧
    ((["mp4"] : List String) = [] → ([["cam", "a.mp4"]] : List (List String)) = []) :=
  queue_membership_invariant
    [WalkEntry.ok ["cam", "a.mp4"] FileType.file (Except.ok 5)] ["mp4"]
    [["cam", "a.mp4"]]
    ⟨[(["cam", "a.mp4"], 5)], ⟨List.Perm.refl _, List.chain'_singleton _⟩, rfl⟩

/-- Sanity: the embedded Path::extension on representative names. -/
theorem extOf_examples :
    extOf "a.mp4" = some "mp4" ∧ extOf ".gitignore" = none ∧
    extOf "noext" = none ∧ extOf "x.tar.gz" = some "gz" := by
  decide

/-- Sanity: the embedded scanner loop keeps exactly the matching
regular files of an iteration, in order, and walkEntries linearizes a
tree depth first. -/
theorem collect_matches_example :
    collect_matches
      (walkEntries (FsTree.dir "r"
        [FsTree.file "a.mp4" (Except.ok 5),
         FsTree.other "dev0",
         FsTree.file "b.txt" (Except.ok 3),
         FsTree.dir "sub" [FsTree.file "c.mp4" (Except.ok 2)]])) ["mp4"] =
    [(["r", "a.mp4"], 5), (["r", "sub", "c.mp4"], 2)] := by
  decide
